import Mathlib

/-!
Shallow embedding of the fitbitImporter data pipeline:
`fitbit_importer/data_analyzer.py` (coverage analysis),
`fitbit_importer/data_merger.py` (merge of API downloads with Takeout data),
`fitbit_importer/smart_updater.py` (update planning),
`fitbit_importer/takeout_processor.py` (record normalization), and the
sleep-session classification used by `dashboard.py`.

Calendar days are modelled as day ordinals (`Nat`); timestamps as minute
ordinals, so the local calendar date of a timestamp `t` is `t / 1440`.
CSV file contents are opaque to the analyzer and the merger and are
modelled as lists of rows.
-/

namespace Fitbit

/-- Rows of a stored CSV day file; row content is opaque to the analyzer
and the merger. -/
abbrev MTable := List Nat

/-- A gap triple `(gap_start, gap_end, missing_days)` as produced by
`DataAnalyzer.analyze_data_type`. -/
abbrev Gap := Nat × Nat × Nat

/-- The gap loop of `DataAnalyzer.analyze_data_type` (data_analyzer.py
lines 82-92): walk consecutive pairs of the sorted date list and, whenever
the difference exceeds one day, record
`(current_date + 1, next_date - 1, diff - 1)`. -/
def findGaps : List Nat → List Gap
  | c :: n :: rest =>
      (if n - c > 1 then [(c + 1, n - 1, n - c - 1)] else []) ++ findGaps (n :: rest)
  | _ => []

/-- The result dictionary of `DataAnalyzer.analyze_data_type`. -/
structure Analysis where
  dirExists : Bool
  days : Nat
  dateRange : Option (Nat × Nat)
  dates : List Nat
  gaps : List Gap
deriving DecidableEq

/-- `DataAnalyzer.analyze_data_type` (data_analyzer.py lines 35-100).  The
data directory for the metric type is `none` when missing, otherwise the
list of stored day files, each given as the day parsed from its file name
together with the rows the file holds.  Dates are taken from file names
only (file contents are never read) and sorted; python's stable `sorted`
is modelled by `List.insertionSort`. -/
def analyze_data_type (dir : Option (List (Nat × MTable))) : Analysis :=
  match dir with
  | none => ⟨false, 0, none, [], []⟩
  | some files =>
      let dates := List.insertionSort (· ≤ ·) (files.map Prod.fst)
      if dates.isEmpty then ⟨true, 0, none, [], []⟩
      else ⟨true, dates.length, some (dates.headD 0, dates.getLastD 0), dates, findGaps dates⟩

/-- The day-partitioned CSV store as the merger sees it: one optional
table per `(metric_type, day)` (one folder per metric type, one file per
day). -/
abbrev MStore := String → Nat → Option MTable

/-- Writing one day file: whole-table replace of the `(metric_type, day)`
partition (`to_csv` / `shutil.copy2` onto `data/<type>/<date>.csv`). -/
def writeM (s : MStore) (mt : String) (d : Nat) (t : MTable) : MStore :=
  fun mt' d' => if mt' = mt ∧ d' = d then some t else s mt' d'

/-- The `results` counters of `DataMerger.merge_data_type`. -/
structure MergeResults where
  added : Nat
  updated : Nat
  skipped : Nat
deriving DecidableEq

/-- `DataMerger.merge_activity_summary` (data_merger.py lines 89-112): an
empty API table is rejected (returns `false` without writing); otherwise
the API table is saved as the activity summary for that date, overwriting
any existing file. -/
def merge_activity_summary (s : MStore) (api_table : MTable) (d : Nat) : MStore × Bool :=
  if api_table.isEmpty then (s, false)
  else (writeM s "activity_summary" d api_table, true)

/-- The loop body of `DataMerger.merge_data_type` (data_merger.py lines
127-151) for a single `(api_date, api_file)` entry. -/
def mergeStep (data_type : String) (takeout_dates : List Nat)
    (acc : MStore × MergeResults) (p : Nat × MTable) : MStore × MergeResults :=
  if data_type = "activity_summary" then
    let r := merge_activity_summary acc.1 p.2 p.1
    if r.2 then (r.1, { acc.2 with added := acc.2.added + 1 }) else (r.1, acc.2)
  else if p.1 ∈ takeout_dates then
    (acc.1, { acc.2 with skipped := acc.2.skipped + 1 })
  else
    (writeM acc.1 data_type p.1 p.2, { acc.2 with added := acc.2.added + 1 })

/-- `DataMerger.merge_data_type` (data_merger.py lines 114-153): fold the
loop body over the API entries for this data type, starting from zero
counts.  `takeout_dates` is the set of dates with Takeout data, computed
before the loop. -/
def merge_data_type (data_type : String) (api_entries : List (Nat × MTable))
    (takeout_dates : List Nat) (s : MStore) : MStore × MergeResults :=
  api_entries.foldl (mergeStep data_type takeout_dates) (s, ⟨0, 0, 0⟩)

/-- The four keys of the `api_data` dict built by
`DataMerger.find_api_data` (data_merger.py lines 37-42). -/
def api_data_types : List String := ["activity_summary", "heart_rate", "sleep", "steps"]

/-- `DataMerger.find_api_data` (data_merger.py lines 35-63): each API
download file is `(stem, date, rows)` where `stem` is the file name
without extension and `date` is parsed from the `YYYY/MM/DD` folder
structure; a file is kept only when its stem is one of the four
`api_data` keys. -/
def find_api_data (api_files : List (String × Nat × MTable)) (data_type : String) :
    List (Nat × MTable) :=
  if data_type ∈ api_data_types then
    (api_files.filter (fun f => f.1 = data_type)).map Prod.snd
  else []

/-- `DataMerger.merge_all_data` (data_merger.py lines 155-180): walk the
sorted union of API and Takeout data type names and merge exactly those
types that are `api_data` keys with a nonempty entry map.  Only the
resulting store is modelled. -/
def merge_all_data (api_files : List (String × Nat × MTable))
    (takeout_types : List String) (takeout_dates : String → List Nat) (s : MStore) : MStore :=
  (List.insertionSort (· ≤ ·) ((api_data_types ++ takeout_types).dedup)).foldl
    (fun acc dt =>
      if dt ∈ api_data_types ∧ find_api_data api_files dt ≠ [] then
        (merge_data_type dt (find_api_data api_files dt) (takeout_dates dt) acc).1
      else acc) s

/-- `SmartUpdater.find_latest_data_date` (smart_updater.py lines 41-50):
the maximum `date_range` end over all analyzed types that exist and have
a range. -/
def find_latest_data_date (analysis : List Analysis) : Option Nat :=
  ((analysis.filter (fun a => a.dirExists)).filterMap
    (fun a => a.dateRange.map Prod.snd)).max?

/-- The recent-data part of `SmartUpdater.calculate_download_strategy`
(smart_updater.py lines 78-92), returning the
`(recent_start, recent_end, days)` triple stored under
`strategy['recent_data']`. -/
def calculate_download_strategy_recent (analysis : List Analysis)
    (today update_recent_days : Nat) : Option (Nat × Nat × Nat) :=
  match find_latest_data_date analysis with
  | some latest_date =>
      if today - latest_date > 0 then some (latest_date + 1, today, today - latest_date)
      else none
  | none => some (today - update_recent_days, today, update_recent_days)

/-- Ordering of priority-gap entries
`(gap_start, gap_end, data_type, gap_days)` by `gap_days`: the sort key
`x[3]` of `SmartUpdater.find_priority_gaps`. -/
def gapLE (a b : Nat × Nat × String × Nat) : Prop := a.2.2.2 ≤ b.2.2.2

instance : DecidableRel gapLE :=
  fun a b => inferInstanceAs (Decidable (a.2.2.2 ≤ b.2.2.2))

instance : IsTotal (Nat × Nat × String × Nat) gapLE :=
  ⟨fun a b => Nat.le_total a.2.2.2 b.2.2.2⟩

instance : IsTrans (Nat × Nat × String × Nat) gapLE :=
  ⟨fun _ _ _ => Nat.le_trans⟩

/-- `SmartUpdater.find_priority_gaps` (smart_updater.py lines 52-66): for
every priority data type present in the analysis and existing, keep its
gaps with `gap_days <= max_gap_days` tagged with the data type, then sort
the collected list ascending by gap size (python's stable `list.sort` is
modelled by `List.insertionSort`). -/
def find_priority_gaps (analysis : String → Option Analysis)
    (priority_types : List String) (max_gap_days : Nat) :
    List (Nat × Nat × String × Nat) :=
  List.insertionSort gapLE
    (priority_types.flatMap (fun dt =>
      match analysis dt with
      | some info =>
          if info.dirExists then
            (info.gaps.filter (fun g => g.2.2 ≤ max_gap_days)).map
              (fun g => (g.1, g.2.1, dt, g.2.2))
          else []
      | none => []))

/-- One normalized output row of a flat metric (`datetime` plus the
value columns); `α` is the per-metric value part: calories, distance,
steps, or the (heart_rate, confidence) pair for heart rate. -/
structure FlatRow (α : Type) where
  datetime : Nat
  value : α
deriving DecidableEq

/-- Local calendar date of a timestamp (`df['datetime'].dt.date`). -/
def dateOf (t : Nat) : Nat := t / 1440

/-- The keys of pandas `df.groupby('date')`: the distinct dates of the
rows, ascending. -/
def groupDays {α : Type} (rows : List (FlatRow α)) : List Nat :=
  (List.insertionSort (· ≤ ·) (rows.map (fun r => dateOf r.datetime))).dedup

/-- The group of rows for one date in `df.groupby('date')` (original
order preserved within the group). -/
def dayRows {α : Type} (rows : List (FlatRow α)) (d : Nat) : List (FlatRow α) :=
  rows.filter (fun r => dateOf r.datetime = d)

/-- The grouping step shared by `TakeoutProcessor.process_calories_json`,
`process_steps_json`, `process_distance_json` and
`process_heart_rate_json` (takeout_processor.py lines 149-155, 177-183,
205-211, 237-243): one `(day, DayTable)` per distinct local date of the
rows. -/
def normalizeFlat {α : Type} (rows : List (FlatRow α)) : List (Nat × List (FlatRow α)) :=
  (groupDays rows).map (fun d => (d, dayRows rows d))

/-- The normalizer's view of the day-partitioned store. -/
def NStore (α : Type) := String → Nat → Option (List (FlatRow α))

/-- Whole-table replace of one `(metric_type, day)` partition
(`day_data[...].to_csv(output_file, index=False)`). -/
def writeDay {α : Type} (s : NStore α) (mt : String) (d : Nat)
    (t : List (FlatRow α)) : NStore α :=
  fun mt' d' => if mt' = mt ∧ d' = d then some t else s mt' d'

/-- Writing every day table produced for one input unit, in order. -/
def writeTables {α : Type} (mt : String) (ts : List (Nat × List (FlatRow α)))
    (s : NStore α) : NStore α :=
  ts.foldl (fun acc p => writeDay acc mt p.1 p.2) s

/-- The last write to day `d` in a list of `(day, table)` writes. -/
def lastWrite {α : Type} (ts : List (Nat × List (FlatRow α))) (d : Nat) :
    Option (List (FlatRow α)) :=
  (ts.reverse.find? (fun p => p.1 = d)).map Prod.snd

/-- JSON values, as far as the heart-rate normalizer inspects them. -/
inductive JVal where
  | num (n : Int)
  | obj (fields : List (String × JVal))
  | null

/-- Python `dict.get`: the binding of the key, if any. -/
def jget (fields : List (String × JVal)) (key : String) : Option JVal :=
  (fields.find? (fun p => p.1 = key)).map Prod.snd

/-- One record of a heart-rate export file: a `dateTime` and a `value`
that is a nested dict like `{"bpm": 80, "confidence": 3}` in well-formed
data, but may be anything in malformed data. -/
structure HRRec where
  dateTime : Nat
  value : JVal

/-- The nested-value extraction of
`TakeoutProcessor.process_heart_rate_json` (takeout_processor.py line
234): `x.get('bpm') if isinstance(x, dict) else x` (a `dict.get` miss is
python `None`, modelled as `JVal.null`). -/
def extract_heart_rate (v : JVal) : JVal :=
  match v with
  | .obj fields => (jget fields "bpm").getD .null
  | x => x

/-- takeout_processor.py line 235:
`x.get('confidence') if isinstance(x, dict) else None`. -/
def extract_confidence (v : JVal) : JVal :=
  match v with
  | .obj fields => (jget fields "confidence").getD .null
  | _ => .null

/-- The row construction of `process_heart_rate_json`
(takeout_processor.py lines 229-235): every input record yields exactly
one output row; no record is dropped and no counter exists. -/
def process_heart_rate_rows (recs : List HRRec) : List (FlatRow (JVal × JVal)) :=
  recs.map (fun r => ⟨r.dateTime, (extract_heart_rate r.value, extract_confidence r.value)⟩)

/-- `TakeoutProcessor.process_heart_rate_json` (takeout_processor.py
lines 216-246) as a mapping day ↦ day table. -/
def process_heart_rate_json (recs : List HRRec) :
    List (Nat × List (FlatRow (JVal × JVal))) :=
  normalizeFlat (process_heart_rate_rows recs)

/-- One sleep session as the classifier sees it. -/
structure SleepSession where
  dateOfSleep : Nat
  minutesAsleep : Nat
deriving DecidableEq

/-- The two sleep-session labels. -/
inductive SleepType where
  | main_sleep
  | nap
deriving DecidableEq

/-- Modelled from the spec: `detect_naps` is imported from
`dashboard_utils` in `src/dashboard.py` (lines 25 and 359) but no source
file of the repository defines it.  Spec §4.1: the session with the
largest `minutesAsleep` on a calendar day is `main_sleep`, all others are
`nap`.  This is the largest `minutesAsleep` among the sessions of one
day. -/
def day_max_asleep (sessions : List SleepSession) (d : Nat) : Nat :=
  ((sessions.filter (fun s => s.dateOfSleep = d)).map
    (fun s => s.minutesAsleep)).foldr max 0

/-- Modelled from the spec (see `day_max_asleep`): the session at index
`i` is the day's `main_sleep` when it attains the day maximum of
`minutesAsleep` and no earlier session of the same day attains it (ties
broken towards the earliest session, so each covered day has exactly one
`main_sleep`). -/
def is_main (sessions : List SleepSession) (i : Nat) (s : SleepSession) : Bool :=
  decide (s.minutesAsleep = day_max_asleep sessions s.dateOfSleep) &&
  (List.range i).all (fun j =>
    match sessions[j]? with
    | some t => !(decide (t.dateOfSleep = s.dateOfSleep) &&
        decide (t.minutesAsleep = day_max_asleep sessions s.dateOfSleep))
    | none => true)

/-- Modelled from the spec (see `day_max_asleep`): label each session,
carrying the index within the full session list. -/
def detect_naps_aux (all : List SleepSession) (i : Nat) :
    List SleepSession → List (SleepSession × SleepType)
  | [] => []
  | s :: rest =>
      (s, if is_main all i s then SleepType.main_sleep else SleepType.nap) ::
        detect_naps_aux all (i + 1) rest

/-- Modelled from the spec: `detect_naps` classifies every session over
the complete session list (the ranking is recomputed from the whole
same-day set on every call, never incrementally). -/
def detect_naps (sessions : List SleepSession) : List (SleepSession × SleepType) :=
  detect_naps_aux sessions 0 sessions

/-- Helper predicate for the existence argument: the session at index `j`
exists, lies on day `d` and attains the day maximum of `minutesAsleep`. -/
def attains_day_max (sessions : List SleepSession) (d j : Nat) : Bool :=
  match sessions[j]? with
  | some u => decide (u.dateOfSleep = d) &&
      decide (u.minutesAsleep = day_max_asleep sessions d)
  | none => false


theorem getLastD_mem_cons : ∀ (m : List Nat) (a : Nat), (a :: m).getLastD 0 ∈ a :: m := by
  intro m
  induction m with
  | nil => intro a; simp
  | cons b m' ih =>
      intro a
      have h := ih b
      rw [List.getLastD_cons] at h
      rw [List.getLastD_cons, List.getLastD_cons]
      exact List.mem_cons_of_mem a h

theorem sorted_headD_le {l : List Nat} (h : List.Sorted (· ≤ ·) l) :
    ∀ d ∈ l, l.headD 0 ≤ d := by
  cases l with
  | nil => intro d hd; cases hd
  | cons a m =>
      intro d hd
      rcases List.mem_cons.mp hd with rfl | hd'
      · simp
      · simpa using List.rel_of_sorted_cons h d hd'

theorem sorted_le_getLastD : ∀ {a : Nat} {m : List Nat},
    List.Sorted (· ≤ ·) (a :: m) → ∀ d ∈ a :: m, d ≤ (a :: m).getLastD 0 := by
  intro a m
  induction m generalizing a with
  | nil =>
      intro _ d hd
      rcases List.mem_cons.mp hd with rfl | hd'
      · simp
      · cases hd'
  | cons b m' ih =>
      intro h d hd
      have h' : List.Sorted (· ≤ ·) (b :: m') := h.of_cons
      have hlast : (a :: b :: m').getLastD 0 = (b :: m').getLastD 0 := by
        simp [List.getLastD_cons]
      rw [hlast]
      rcases List.mem_cons.mp hd with rfl | hd'
      · have hab : d ≤ b := List.rel_of_sorted_cons h b (by simp)
        exact le_trans hab (ih h' b (by simp))
      · exact ih h' d hd'

theorem mem_findGaps_iff : ∀ (ds : List Nat) (g : Gap),
    g ∈ findGaps ds ↔ ∃ i, i + 1 < ds.length ∧
      1 < ds.getD (i + 1) 0 - ds.getD i 0 ∧
      g = (ds.getD i 0 + 1, ds.getD (i + 1) 0 - 1,
           ds.getD (i + 1) 0 - ds.getD i 0 - 1) := by
  intro ds
  induction ds with
  | nil => intro g; simp [findGaps]
  | cons c rest ih =>
      cases rest with
      | nil => intro g; simp [findGaps]
      | cons n rest' =>
          intro g
          rw [findGaps]
          constructor
          · intro hg
            rcases List.mem_append.mp hg with h1 | h2
            · by_cases hd : n - c > 1
              · rw [if_pos hd] at h1
                have := List.mem_singleton.mp h1
                subst this
                exact ⟨0, by simp, by simpa using hd, by simp⟩
              · rw [if_neg hd] at h1; cases h1
            · rcases (ih g).mp h2 with ⟨i, hlen, hdiff, heq⟩
              refine ⟨i + 1, ?_, ?_, ?_⟩
              · simpa using Nat.succ_lt_succ hlen
              · simpa using hdiff
              · simpa using heq
          · rintro ⟨i, hlen, hdiff, heq⟩
            cases i with
            | zero =>
                subst heq
                simp only [List.getD_cons_zero, List.getD_cons_succ] at hdiff ⊢
                apply List.mem_append_left
                rw [if_pos hdiff]
                simp
            | succ i' =>
                apply List.mem_append_right
                apply (ih g).mpr
                refine ⟨i', by simpa using hlen, by simpa using hdiff, by simpa using heq⟩


theorem findGaps_pairwise_start : ∀ {ds : List Nat}, List.Sorted (· < ·) ds →
    List.Pairwise (fun a b : Gap => a.1 < b.1) (findGaps ds) := by
  intro ds
  induction ds with
  | nil => intro _; simp [findGaps]
  | cons c rest ih =>
      cases rest with
      | nil => intro _; simp [findGaps]
      | cons n rest' =>
          intro h
          rw [findGaps]
          apply List.pairwise_append.mpr
          refine ⟨?_, ih h.of_cons, ?_⟩
          · by_cases hd : n - c > 1 <;> simp [hd]
          · intro a ha b hb
            by_cases hd : n - c > 1
            · rw [if_pos hd] at ha
              have ha' := List.mem_singleton.mp ha
              subst ha'
              rcases (mem_findGaps_iff _ b).mp hb with ⟨i, hlen, hdiff, hbeq⟩
              have hi : i < (n :: rest').length := Nat.lt_of_succ_lt hlen
              have hmem : (n :: rest').getD i 0 ∈ n :: rest' := by
                rw [List.getD_eq_getElem _ _ hi]
                exact List.getElem_mem hi
              have hc : c < (n :: rest').getD i 0 :=
                List.rel_of_sorted_cons h _ hmem
              subst hbeq
              simpa using Nat.succ_lt_succ hc
            · rw [if_neg hd] at ha; cases ha

theorem findGaps_nodup {ds : List Nat} (h : List.Sorted (· < ·) ds) :
    (findGaps ds).Nodup :=
  (findGaps_pairwise_start h).imp (fun hab => by
    intro hEq
    subst hEq
    exact lt_irrefl _ hab)


theorem analyze_eq_of_sorted (files : List (Nat × MTable))
    (hs : List.Sorted (· ≤ ·) (files.map Prod.fst)) :
    analyze_data_type (some files) =
      if files.map Prod.fst = [] then ⟨true, 0, none, [], []⟩
      else ⟨true, (files.map Prod.fst).length,
            some ((files.map Prod.fst).headD 0, (files.map Prod.fst).getLastD 0),
            files.map Prod.fst, findGaps (files.map Prod.fst)⟩ := by
  simp only [analyze_data_type]
  rw [hs.insertionSort_eq]
  by_cases h : files.map Prod.fst = []
  · simp [h]
  · simp [h, List.isEmpty_iff]

/-- C1: for a store holding a sorted set of covered days, the Coverage
Analyzer reports span = (min day, max day); its gap list holds, for each
consecutive pair of covered days at distance more than one day, exactly
one gap `(current + 1, next - 1)` of length `next - current - 1`, and
nothing else; covered days `{1, 3, 4, 7}` give span `(1, 7)` and gaps
`[(2, 2, 1), (5, 6, 2)]`; at most one covered day gives no gaps. -/
theorem coverage_gap_analysis (files : List (Nat × MTable))
    (hs : List.Sorted (· < ·) (files.map Prod.fst)) :
    ((files.map Prod.fst ≠ [] →
        ∃ m M, (analyze_data_type (some files)).dateRange = some (m, M) ∧
          m ∈ files.map Prod.fst ∧ M ∈ files.map Prod.fst ∧
          ∀ d ∈ files.map Prod.fst, m ≤ d ∧ d ≤ M) ∧
      (∀ g : Gap, g ∈ (analyze_data_type (some files)).gaps ↔
        ∃ i, i + 1 < (files.map Prod.fst).length ∧
          1 < (files.map Prod.fst).getD (i + 1) 0 - (files.map Prod.fst).getD i 0 ∧
          g = ((files.map Prod.fst).getD i 0 + 1,
               (files.map Prod.fst).getD (i + 1) 0 - 1,
               (files.map Prod.fst).getD (i + 1) 0 -
                 (files.map Prod.fst).getD i 0 - 1)) ∧
      (analyze_data_type (some files)).gaps.Nodup ∧
      ((files.map Prod.fst).length ≤ 1 → (analyze_data_type (some files)).gaps = [])) ∧
    analyze_data_type (some [(1, [0]), (3, [0]), (4, [0]), (7, [0])]) =
      ⟨true, 4, some (1, 7), [1, 3, 4, 7], [(2, 2, 1), (5, 6, 2)]⟩ := by
  have hle : List.Sorted (· ≤ ·) (files.map Prod.fst) :=
    hs.imp (fun h => le_of_lt h)
  have hrw := analyze_eq_of_sorted files hle
  constructor
  · by_cases h : files.map Prod.fst = []
    · rw [if_pos h] at hrw
      refine ⟨fun hne => absurd h hne, ?_, ?_, ?_⟩
      · intro g
        rw [hrw]
        simp [h]
      · rw [hrw]; simp
      · intro _; rw [hrw]
    · rw [if_neg h] at hrw
      obtain ⟨a, m, hds⟩ : ∃ a m, files.map Prod.fst = a :: m := by
        cases hds : files.map Prod.fst with
        | nil => exact absurd hds h
        | cons a m => exact ⟨a, m, rfl⟩
      rw [hds] at hrw hle hs
      rw [hds]
      refine ⟨?_, ?_, ?_, ?_⟩
      · intro _
        refine ⟨(a :: m).headD 0, (a :: m).getLastD 0, by rw [hrw], by simp,
          getLastD_mem_cons m a, ?_⟩
        intro d hd
        exact ⟨sorted_headD_le hle d hd, sorted_le_getLastD hle d hd⟩
      · intro g
        rw [hrw]
        exact mem_findGaps_iff _ g
      · rw [hrw]
        exact findGaps_nodup hs
      · intro hlen
        rw [hrw]
        cases m with
        | nil => simp [findGaps]
        | cons b mm => simp at hlen
  · decide

theorem coverage_gap_analysis_witness :
    analyze_data_type (some [(1, [0]), (3, [0]), (4, [0]), (7, [0])]) =
      ⟨true, 4, some (1, 7), [1, 3, 4, 7], [(2, 2, 1), (5, 6, 2)]⟩ :=
  (coverage_gap_analysis [(1, [0]), (3, [0]), (4, [0]), (7, [0])] (by decide)).2


theorem analyze_dates_perm (files : List (Nat × MTable)) :
    ((analyze_data_type (some files)).dates).Perm (files.map Prod.fst) := by
  simp only [analyze_data_type]
  by_cases h : (List.insertionSort (· ≤ ·) (files.map Prod.fst)).isEmpty
  · have h' : List.insertionSort (· ≤ ·) (files.map Prod.fst) = [] :=
      List.isEmpty_iff.mp h
    have hp := List.perm_insertionSort (· ≤ ·) (files.map Prod.fst)
    rw [h'] at hp
    have hnil : files.map Prod.fst = [] := hp.symm.eq_nil
    simp [h, hnil]
  · simp only [h, Bool.false_eq_true, if_false]
    exact List.perm_insertionSort (· ≤ ·) (files.map Prod.fst)

/-- C9 amended: a day is counted in `covered_days` (the `dates` list of
the analysis) exactly when a stored day file exists for that
`(metric_type, day)`, whether or not that file holds any rows, and the
reported day count is the number of stored day files. -/
theorem covered_day_iff_file_present (files : List (Nat × MTable)) (d : Nat) :
    (d ∈ (analyze_data_type (some files)).dates ↔ ∃ t, (d, t) ∈ files) ∧
    (analyze_data_type (some files)).days = files.length := by
  constructor
  · rw [(analyze_dates_perm files).mem_iff]
    constructor
    · intro hd
      rcases List.mem_map.mp hd with ⟨p, hp, hfst⟩
      exact ⟨p.2, by rw [← hfst]; simpa using hp⟩
    · rintro ⟨t, ht⟩
      exact List.mem_map.mpr ⟨(d, t), ht, rfl⟩
  · have hlen : (analyze_data_type (some files)).dates.length = files.length := by
      rw [(analyze_dates_perm files).length_eq, List.length_map]
    simp only [analyze_data_type] at hlen ⊢
    by_cases h : (List.insertionSort (· ≤ ·) (files.map Prod.fst)).isEmpty
    · simp only [h, if_true] at hlen ⊢
      simp at hlen
      simp [hlen]
    · simp only [h, Bool.false_eq_true, if_false] at hlen ⊢
      simp at hlen
      simp [hlen]

/-- C9 counterexample: in a store whose only file for day 5 holds no rows
at all, day 5 is still reported as covered and counted — the analyzer
reads only file names, never file contents. -/
theorem empty_table_day_counted_covered :
    (analyze_data_type (some [(5, ([] : MTable))])).dates = [5] ∧
    (analyze_data_type (some [(5, ([] : MTable))])).days = 1 := by
  decide


/-- C2 counterexample: for the `activity_summary` metric type an *empty*
fetched (API) table is not written at all — an existing table for that
day survives, contradicting "writes the fetched table unconditionally,
overwriting any existing table". -/
theorem activity_summary_empty_api_not_written :
    ((merge_data_type "activity_summary" [(0, ([] : MTable))] []
        (writeM (fun _ _ => none) "activity_summary" 0 [7])).1 "activity_summary" 0
      = some [7]) ∧ some ([7] : MTable) ≠ some ([] : MTable) := by
  constructor
  · decide
  · decide

/-- C2 amended: merging one fetched `(day, table)` entry: for
`activity_summary` a non-empty fetched table is written unconditionally
(overwriting any existing table for that day) and counted as added, while
an empty fetched table is discarded without write or count; for every
other metric type, a fetched table for a day with Takeout data is
discarded and counted as skipped, and one for a day without Takeout data
is written and counted as added. -/
theorem merge_policy (data_type : String) (tk : List Nat) (s : MStore)
    (d : Nat) (t : MTable) :
    (data_type = "activity_summary" → t ≠ [] →
      merge_data_type data_type [(d, t)] tk s
        = (writeM s "activity_summary" d t, ⟨1, 0, 0⟩)) ∧
    (data_type = "activity_summary" → t = [] →
      merge_data_type data_type [(d, t)] tk s = (s, ⟨0, 0, 0⟩)) ∧
    (data_type ≠ "activity_summary" → d ∈ tk →
      merge_data_type data_type [(d, t)] tk s = (s, ⟨0, 0, 1⟩)) ∧
    (data_type ≠ "activity_summary" → d ∉ tk →
      merge_data_type data_type [(d, t)] tk s = (writeM s data_type d t, ⟨1, 0, 0⟩)) := by
  refine ⟨?_, ?_, ?_, ?_⟩
  · rintro rfl ht
    have hE : t.isEmpty = false := by
      cases t with
      | nil => exact absurd rfl ht
      | cons a l => rfl
    simp [merge_data_type, mergeStep, merge_activity_summary, hE]
  · rintro rfl rfl
    simp [merge_data_type, mergeStep, merge_activity_summary]
  · intro hne hd
    simp [merge_data_type, mergeStep, hne, hd]
  · intro hne hd
    simp [merge_data_type, mergeStep, hne, hd]

theorem merge_policy_witness :
    merge_data_type "steps" [(3, [5])] [] (fun _ _ => none)
      = (writeM (fun _ _ => none) "steps" 3 [5], ⟨1, 0, 0⟩) :=
  (merge_policy "steps" [] (fun _ _ => none) 3 [5]).2.2.2 (by decide) (by simp)

theorem merge_fold_store_frame (data_type : String) (tk : List Nat) :
    ∀ (api : List (Nat × MTable)) (acc : MStore × MergeResults) (mt : String) (d : Nat),
      mt ≠ data_type →
      (api.foldl (mergeStep data_type tk) acc).1 mt d = acc.1 mt d := by
  intro api
  induction api with
  | nil => intro acc mt d _; rfl
  | cons p rest ih =>
      intro acc mt d hne
      rw [List.foldl_cons, ih _ mt d hne]
      unfold mergeStep merge_activity_summary
      by_cases h1 : data_type = "activity_summary"
      · subst h1
        by_cases h2 : p.2.isEmpty <;> simp [h2, writeM, hne]
      · by_cases h2 : p.1 ∈ tk <;> simp [h1, h2, writeM, hne]

/-- C10: a merge pass reads and writes only the four metric types of the
`api_data` dict (`activity_summary`, `heart_rate`, `sleep`, `steps`):
every store partition of any other metric type is unchanged by
`merge_all_data`, and `find_api_data` ignores API files of any other
type. -/
theorem merge_touches_only_api_types (api_files : List (String × Nat × MTable))
    (takeout_types : List String) (takeout_dates : String → List Nat) (s : MStore)
    (mt : String) (d : Nat) (hmt : mt ∉ api_data_types) :
    merge_all_data api_files takeout_types takeout_dates s mt d = s mt d ∧
    (∀ dt, dt ∉ api_data_types → find_api_data api_files dt = []) := by
  constructor
  · unfold merge_all_data
    generalize (List.insertionSort (· ≤ ·) ((api_data_types ++ takeout_types).dedup)) = types
    induction types generalizing s with
    | nil => rfl
    | cons dt rest ih =>
        rw [List.foldl_cons]
        by_cases h : dt ∈ api_data_types ∧ find_api_data api_files dt ≠ []
        · rw [if_pos h, ih]
          have hne : mt ≠ dt := fun hEq => hmt (hEq ▸ h.1)
          exact merge_fold_store_frame dt (takeout_dates dt) _ _ mt d hne
        · rw [if_neg h]
          exact ih s
  · intro dt hdt
    unfold find_api_data
    rw [if_neg hdt]

theorem merge_touches_only_api_types_witness :
    merge_all_data [] [] (fun _ => []) (fun _ _ => none) "calories" 0
      = (fun _ _ => none : MStore) "calories" 0 :=
  (merge_touches_only_api_types [] [] (fun _ => []) (fun _ _ => none)
    "calories" 0 (by decide)).1


/-- C3 evidence: with a known latest covered day `m < today` the recent
range is `(m + 1, today)`; with `today` equal to the latest covered day
no recent range is produced; but on a cold start (no covered day at all)
with `today = 100` and `update_recent_days = 7` the code produces start
day `100 - 7 = 93`, not the `100 - 7 + 1 = 94` the claim states. -/
theorem recent_range_strategy :
    (∀ (analysis : List Analysis) (today m k : Nat),
        find_latest_data_date analysis = some m → m < today →
        calculate_download_strategy_recent analysis today k
          = some (m + 1, today, today - m)) ∧
    (∀ (analysis : List Analysis) (m k : Nat),
        find_latest_data_date analysis = some m →
        calculate_download_strategy_recent analysis m k = none) ∧
    calculate_download_strategy_recent [⟨false, 0, none, [], []⟩] 100 7
      = some (93, 100, 7) ∧
    100 - 7 + 1 ≠ 93 := by
  refine ⟨?_, ?_, by decide, by decide⟩
  · intro analysis today m k hl hmt
    unfold calculate_download_strategy_recent
    rw [hl]
    have hpos : today - m > 0 := Nat.sub_pos_of_lt hmt
    simp [hpos]
  · intro analysis m k hl
    unfold calculate_download_strategy_recent
    rw [hl]
    simp

theorem recent_range_strategy_witness :
    calculate_download_strategy_recent [⟨true, 3, some (95, 97), [95, 96, 97], []⟩] 100 7
      = some (98, 100, 3) :=
  recent_range_strategy.1 [⟨true, 3, some (95, 97), [95, 96, 97], []⟩] 100 97 7
    (by decide) (by decide)

/-- C4: the priority-gap list contains exactly the gaps of the priority
metric types (present and existing in the analysis) whose length is at
most `max_gap_days`, each tagged with its metric type, and the flattened
result is sorted ascending by gap length. -/
theorem priority_gaps_sorted_and_complete (analysis : String → Option Analysis)
    (priority_types : List String) (max_gap_days : Nat) :
    List.Sorted gapLE (find_priority_gaps analysis priority_types max_gap_days) ∧
    ∀ x : Nat × Nat × String × Nat,
      x ∈ find_priority_gaps analysis priority_types max_gap_days ↔
        ∃ dt info gs ge gl, dt ∈ priority_types ∧ analysis dt = some info ∧
          info.dirExists = true ∧ (gs, ge, gl) ∈ info.gaps ∧ gl ≤ max_gap_days ∧
          x = (gs, ge, dt, gl) := by
  unfold find_priority_gaps
  constructor
  · exact List.sorted_insertionSort gapLE _
  · intro x
    rw [(List.perm_insertionSort gapLE _).mem_iff, List.mem_flatMap]
    constructor
    · rintro ⟨dt, hdt, hx⟩
      cases hinfo : analysis dt with
      | none => rw [hinfo] at hx; cases hx
      | some info =>
          rw [hinfo] at hx
          simp only [] at hx
          by_cases hex : info.dirExists
          · rw [if_pos hex] at hx
            rcases List.mem_map.mp hx with ⟨g, hg, rfl⟩
            rcases List.mem_filter.mp hg with ⟨hgmem, hglen⟩
            exact ⟨dt, info, g.1, g.2.1, g.2.2, hdt, hinfo, hex, by simpa using hgmem,
              by simpa using hglen, rfl⟩
          · rw [if_neg hex] at hx; cases hx
    · rintro ⟨dt, info, gs, ge, gl, hdt, hinfo, hex, hmem, hlen, rfl⟩
      refine ⟨dt, hdt, ?_⟩
      rw [hinfo]
      simp only []
      rw [if_pos hex]
      exact List.mem_map.mpr ⟨(gs, ge, gl), List.mem_filter.mpr ⟨hmem, by simpa using hlen⟩, rfl⟩


theorem writeTables_apply {α : Type} (mt : String) :
    ∀ (ts : List (Nat × List (FlatRow α))) (s : NStore α) (mt' : String) (d' : Nat),
      writeTables mt ts s mt' d' =
        if mt' = mt then (lastWrite ts d').or (s mt' d') else s mt' d' := by
  intro ts
  induction ts with
  | nil =>
      intro s mt' d'
      by_cases h : mt' = mt <;> simp [writeTables, lastWrite, h]
  | cons p rest ih =>
      intro s mt' d'
      have step : writeTables mt (p :: rest) s = writeTables mt rest (writeDay s mt p.1 p.2) := rfl
      rw [step, ih]
      have hlw : lastWrite (p :: rest) d' =
          (lastWrite rest d').or (if p.1 = d' then some p.2 else none) := by
        unfold lastWrite
        rw [List.reverse_cons, List.find?_append]
        cases hfa : (List.find? (fun q => q.1 = d') rest.reverse) with
        | none =>
            by_cases hd : p.1 = d' <;> simp [hfa, List.find?, hd]
        | some v => simp [hfa]
      rw [hlw]
      by_cases h : mt' = mt
      · rw [if_pos h, if_pos h]
        subst h
        cases hl : lastWrite rest d' with
        | some v => simp [hl]
        | none =>
            simp only [hl, Option.none_or]
            unfold writeDay
            by_cases hd : d' = p.1
            · simp [hd]
            · have hd' : ¬ p.1 = d' := fun hh => hd hh.symm
              simp [hd, hd']
      · rw [if_neg h, if_neg h]
        simp [writeDay, h]

/-- C6: normalizing a flat metric input unit twice and writing both
results leaves the day-partitioned store identical to normalizing and
writing once — every write replaces the whole `(metric_type, day)` table
rather than appending to it. -/
theorem normalize_write_idempotent :
    ∀ (α : Type) (mt : String) (rows : List (FlatRow α)) (s : NStore α),
      writeTables mt (normalizeFlat rows) (writeTables mt (normalizeFlat rows) s)
        = writeTables mt (normalizeFlat rows) s := by
  intro α mt rows s
  funext mt' d'
  simp only [writeTables_apply]
  by_cases h : mt' = mt
  · cases hl : lastWrite (normalizeFlat rows) d' with
    | some v => simp [h, hl]
    | none => simp [h, hl]
  · simp [h]

/-- C7: every output row of the flat-metric normalizer lands in the day
table of the local calendar date of its timestamp, the number of day
tables equals the number of distinct dates among the rows, and a day
table exists exactly for the dates that occur among the rows. -/
theorem grouping_invariant :
    (∀ (α : Type) (rows : List (FlatRow α)) (d : Nat) (tbl : List (FlatRow α)),
        (d, tbl) ∈ normalizeFlat rows → ∀ r ∈ tbl, dateOf r.datetime = d) ∧
    (∀ (α : Type) (rows : List (FlatRow α)),
        (normalizeFlat rows).length
          = ((rows.map (fun r => dateOf r.datetime)).dedup).length) ∧
    (∀ (α : Type) (rows : List (FlatRow α)) (d : Nat),
        d ∈ (normalizeFlat rows).map Prod.fst ↔
          ∃ r ∈ rows, dateOf r.datetime = d) := by
  refine ⟨?_, ?_, ?_⟩
  · intro α rows d tbl hmem r hr
    rcases List.mem_map.mp hmem with ⟨d', _, heq⟩
    cases heq
    rcases List.mem_filter.mp hr with ⟨_, hdec⟩
    exact of_decide_eq_true hdec
  · intro α rows
    unfold normalizeFlat groupDays
    rw [List.length_map]
    exact ((List.perm_insertionSort (· ≤ ·) _).dedup).length_eq
  · intro α rows d
    unfold normalizeFlat groupDays
    rw [List.map_map]
    have hcomp : (Prod.fst ∘ fun d => (d, dayRows rows d)) = id := rfl
    rw [hcomp, List.map_id, List.mem_dedup,
      (List.perm_insertionSort (· ≤ ·) _).mem_iff, List.mem_map]

theorem grouping_invariant_witness : dateOf (1500 : Nat) = 1 :=
  grouping_invariant.1 Nat [⟨1500, 0⟩] 1 [⟨1500, 0⟩] (by decide) ⟨1500, 0⟩ (by decide)

/-- C5 counterexample: a heart-rate record whose `value` is JSON null is
not skipped — it yields an output row (with null `heart_rate` and null
`confidence`), so the output still has one row, and no malformed-record
counter exists anywhere in the processor. -/
theorem malformed_heart_rate_value_kept :
    process_heart_rate_rows [⟨0, JVal.null⟩] = [⟨0, (JVal.null, JVal.null)⟩] ∧
    (process_heart_rate_rows [⟨0, JVal.null⟩]).length = 1 :=
  ⟨rfl, rfl⟩

/-- C5 amended: the nested heart-rate value `(bpm 62, confidence 3)`
normalizes to the row `(heart_rate 62, confidence 3)`; normalization is
total and keeps exactly one output row per input record (so nothing ever
raises or aborts the batch), and a null value yields a row with null
`heart_rate` and null `confidence` instead of being skipped or counted. -/
theorem heart_rate_normalization :
    (∀ t : Nat, process_heart_rate_rows
        [⟨t, JVal.obj [("bpm", JVal.num 62), ("confidence", JVal.num 3)]⟩]
      = [⟨t, (JVal.num 62, JVal.num 3)⟩]) ∧
    (∀ recs : List HRRec, (process_heart_rate_rows recs).length = recs.length) ∧
    (∀ t : Nat, process_heart_rate_rows [⟨t, JVal.null⟩]
      = [⟨t, (JVal.null, JVal.null)⟩]) := by
  refine ⟨?_, ?_, ?_⟩
  · intro t
    simp [process_heart_rate_rows, extract_heart_rate, extract_confidence, jget]
  · intro recs
    simp [process_heart_rate_rows]
  · intro t
    rfl


theorem foldr_max_le {l : List Nat} {a : Nat} (h : a ∈ l) : a ≤ l.foldr max 0 := by
  induction l with
  | nil => cases h
  | cons b m ih =>
      rcases List.mem_cons.mp h with rfl | h'
      · exact le_max_left _ _
      · exact le_trans (ih h') (le_max_right _ _)

theorem foldr_max_mem (l : List Nat) : l.foldr max 0 = 0 ∨ l.foldr max 0 ∈ l := by
  induction l with
  | nil => left; rfl
  | cons b m ih =>
      rcases ih with h | h
      · right
        rw [List.foldr_cons, h, Nat.max_zero]
        exact List.mem_cons_self b m
      · rcases max_choice b (m.foldr max 0) with hc | hc
        · right; rw [List.foldr_cons, hc]; exact List.mem_cons_self b m
        · right; rw [List.foldr_cons, hc]; exact List.mem_cons_of_mem b h

theorem le_day_max {sessions : List SleepSession} {t : SleepSession}
    (ht : t ∈ sessions) :
    t.minutesAsleep ≤ day_max_asleep sessions t.dateOfSleep := by
  apply foldr_max_le
  exact List.mem_map.mpr ⟨t, List.mem_filter.mpr ⟨ht, by simp⟩, rfl⟩

theorem day_max_attained {sessions : List SleepSession} {d : Nat}
    (h : ∃ s ∈ sessions, s.dateOfSleep = d) :
    ∃ t ∈ sessions, t.dateOfSleep = d ∧
      t.minutesAsleep = day_max_asleep sessions d := by
  rcases foldr_max_mem
      ((sessions.filter (fun s => s.dateOfSleep = d)).map (fun s => s.minutesAsleep)) with
    h0 | hm
  · rcases h with ⟨s, hs, hd⟩
    refine ⟨s, hs, hd, ?_⟩
    have h1 : s.minutesAsleep ≤ day_max_asleep sessions d := hd ▸ le_day_max hs
    have h2 : day_max_asleep sessions d = 0 := h0
    omega
  · rcases List.mem_map.mp hm with ⟨t, htf, hteq⟩
    rcases List.mem_filter.mp htf with ⟨htmem, htd⟩
    exact ⟨t, htmem, of_decide_eq_true htd, hteq⟩

theorem detect_naps_aux_getElem (all : List SleepSession) :
    ∀ (l : List SleepSession) (i j : Nat),
      (detect_naps_aux all i l)[j]? = (l[j]?).map
        (fun s => (s, if is_main all (i + j) s then SleepType.main_sleep
                      else SleepType.nap)) := by
  intro l
  induction l with
  | nil => intro i j; simp [detect_naps_aux]
  | cons s rest ih =>
      intro i j
      cases j with
      | zero => simp [detect_naps_aux]
      | succ j' =>
          have := ih (i + 1) j'
          simp only [detect_naps_aux, List.getElem?_cons_succ]
          rw [this]
          have harith : i + 1 + j' = i + (j' + 1) := by omega
          rw [harith]

theorem detect_naps_getElem (sessions : List SleepSession) (j : Nat) :
    (detect_naps sessions)[j]? = (sessions[j]?).map
      (fun s => (s, if is_main sessions j s then SleepType.main_sleep
                    else SleepType.nap)) := by
  have h := detect_naps_aux_getElem sessions sessions 0 j
  simpa [detect_naps] using h

theorem label_main_iff {sessions : List SleepSession} {j : Nat} {s : SleepSession}
    (hj : sessions[j]? = some s) :
    (detect_naps sessions)[j]? = some (s, SleepType.main_sleep) ↔
      is_main sessions j s = true := by
  rw [detect_naps_getElem, hj]
  by_cases h : is_main sessions j s <;> simp [h]


theorem main_label_elim {sessions : List SleepSession} {j : Nat} {s : SleepSession}
    (h : (detect_naps sessions)[j]? = some (s, SleepType.main_sleep)) :
    sessions[j]? = some s ∧ is_main sessions j s = true := by
  cases hsj : sessions[j]? with
  | none => rw [detect_naps_getElem, hsj] at h; cases h
  | some u =>
      rw [detect_naps_getElem, hsj] at h
      by_cases hm : is_main sessions j u
      · simp only [hm, if_true, Option.map_some'] at h
        have hus : u = s := by
          have h1 := congrArg (fun o => o.map Prod.fst) h
          simp only [Option.map_some'] at h1
          exact congrArg (fun o => o.getD u) h1
        subst hus
        exact ⟨rfl, hm⟩
      · simp only [Bool.not_eq_true] at hm
        simp only [hm, Bool.false_eq_true, if_false, Option.map_some'] at h
        have h2 : SleepType.nap = SleepType.main_sleep := by
          have h1 := congrArg (fun o => o.map Prod.snd) h
          simp only [Option.map_some'] at h1
          exact congrArg (fun o => o.getD SleepType.nap) h1
        cases h2

theorem is_main_attains {sessions : List SleepSession} {j : Nat} {s : SleepSession}
    (hm : is_main sessions j s = true) :
    s.minutesAsleep = day_max_asleep sessions s.dateOfSleep := by
  unfold is_main at hm
  rw [Bool.and_eq_true] at hm
  exact of_decide_eq_true hm.1

theorem main_unique {sessions : List SleepSession} {i j : Nat} {s t : SleepSession}
    (hi : sessions[i]? = some s) (hmi : is_main sessions i s = true)
    (hj : sessions[j]? = some t) (hmj : is_main sessions j t = true)
    (hd : s.dateOfSleep = t.dateOfSleep) : i = j := by
  rcases lt_trichotomy i j with hlt | hEq | hgt
  · exfalso
    unfold is_main at hmj
    rw [Bool.and_eq_true, List.all_eq_true] at hmj
    have hk := hmj.2 i (by simpa using hlt)
    rw [hi] at hk
    have h2 : s.minutesAsleep = day_max_asleep sessions t.dateOfSleep :=
      hd ▸ is_main_attains hmi
    simp [hd, h2] at hk
  · exact hEq
  · exfalso
    unfold is_main at hmi
    rw [Bool.and_eq_true, List.all_eq_true] at hmi
    have hk := hmi.2 j (by simpa using hgt)
    rw [hj] at hk
    have h1 : t.dateOfSleep = s.dateOfSleep := hd.symm
    have h2 : t.minutesAsleep = day_max_asleep sessions s.dateOfSleep :=
      hd ▸ is_main_attains hmj
    simp [h1, h2] at hk

theorem main_exists {sessions : List SleepSession} {d : Nat}
    (h : ∃ s ∈ sessions, s.dateOfSleep = d) :
    ∃ (j : Nat) (u : SleepSession),
      (detect_naps sessions)[j]? = some (u, SleepType.main_sleep) ∧
      u.dateOfSleep = d := by
  have hP : ∃ j, attains_day_max sessions d j = true := by
    rcases day_max_attained h with ⟨t, htmem, htd, htmax⟩
    rcases List.mem_iff_getElem.mp htmem with ⟨i, hilt, hget⟩
    refine ⟨i, ?_⟩
    unfold attains_day_max
    rw [List.getElem?_eq_getElem hilt, hget]
    simp [htd, htmax]
  have hspec : attains_day_max sessions d (Nat.find hP) = true := Nat.find_spec hP
  have hmin : ∀ k, k < Nat.find hP → attains_day_max sessions d k = false := by
    intro k hk
    have h1 := Nat.find_min hP hk
    simpa using h1
  cases hsj : sessions[Nat.find hP]? with
  | none => unfold attains_day_max at hspec; rw [hsj] at hspec; cases hspec
  | some u =>
      unfold attains_day_max at hspec
      rw [hsj, Bool.and_eq_true] at hspec
      have hud : u.dateOfSleep = d := of_decide_eq_true hspec.1
      have hum : u.minutesAsleep = day_max_asleep sessions d := of_decide_eq_true hspec.2
      have hmain : is_main sessions (Nat.find hP) u = true := by
        unfold is_main
        rw [Bool.and_eq_true]
        constructor
        · exact decide_eq_true (by rw [hud]; exact hum)
        · rw [List.all_eq_true]
          intro k hk
          have hklt : k < Nat.find hP := List.mem_range.mp hk
          have hfalse := hmin k hklt
          unfold attains_day_max at hfalse
          cases hsk : sessions[k]? with
          | none => simp [hsk]
          | some v =>
              rw [hsk] at hfalse
              have hfalse2 : (decide (v.dateOfSleep = d) &&
                  decide (v.minutesAsleep = day_max_asleep sessions d)) = false := hfalse
              simp [hsk, hud]
              have h3 := by simpa using hfalse2
              tauto
      refine ⟨Nat.find hP, u, ?_, hud⟩
      rw [detect_naps_getElem, hsj]
      simp [hmain]


/-- C8 (modelled from the spec, as `detect_naps` is absent from the
sources): on every calendar day with at least one session, exactly one
session is labeled `main_sleep` and it attains the largest
`minutesAsleep` of that day; every other same-day session is labeled
`nap`; sessions `[420, 30, 45]` of one day are labeled
`[main_sleep, nap, nap]`, and after adding a fourth larger session the
complete same-day set is re-ranked, relabeling the 420-minute session to
`nap`. -/
theorem sleep_session_classification :
    (∀ (sessions : List SleepSession) (j : Nat) (s : SleepSession),
        (detect_naps sessions)[j]? = some (s, SleepType.main_sleep) →
        ∀ (i : Nat) (t : SleepSession), sessions[i]? = some t →
          t.dateOfSleep = s.dateOfSleep → t.minutesAsleep ≤ s.minutesAsleep) ∧
    (∀ (sessions : List SleepSession) (d : Nat),
        (∃ s ∈ sessions, s.dateOfSleep = d) →
        ∃ (j : Nat) (u : SleepSession),
          (detect_naps sessions)[j]? = some (u, SleepType.main_sleep) ∧
          u.dateOfSleep = d) ∧
    (∀ (sessions : List SleepSession) (i j : Nat) (s t : SleepSession),
        (detect_naps sessions)[i]? = some (s, SleepType.main_sleep) →
        (detect_naps sessions)[j]? = some (t, SleepType.main_sleep) →
        s.dateOfSleep = t.dateOfSleep → i = j) ∧
    (∀ (sessions : List SleepSession) (i j : Nat) (s t : SleepSession),
        (detect_naps sessions)[i]? = some (s, SleepType.main_sleep) →
        sessions[j]? = some t → t.dateOfSleep = s.dateOfSleep → j ≠ i →
        (detect_naps sessions)[j]? = some (t, SleepType.nap)) ∧
    detect_naps [⟨0, 420⟩, ⟨0, 30⟩, ⟨0, 45⟩] =
      [(⟨0, 420⟩, SleepType.main_sleep), (⟨0, 30⟩, SleepType.nap),
       (⟨0, 45⟩, SleepType.nap)] ∧
    detect_naps [⟨0, 420⟩, ⟨0, 30⟩, ⟨0, 45⟩, ⟨0, 500⟩] =
      [(⟨0, 420⟩, SleepType.nap), (⟨0, 30⟩, SleepType.nap),
       (⟨0, 45⟩, SleepType.nap), (⟨0, 500⟩, SleepType.main_sleep)] := by
  refine ⟨?_, ?_, ?_, ?_, by decide, by decide⟩
  · intro sessions j s hmain i t hti htd
    rcases main_label_elim hmain with ⟨_, hm⟩
    have hs := is_main_attains hm
    have ht : t.minutesAsleep ≤ day_max_asleep sessions t.dateOfSleep :=
      le_day_max (List.getElem?_mem hti)
    rw [htd] at ht
    rw [hs]
    exact ht
  · intro sessions d h
    exact main_exists h
  · intro sessions i j s t h1 h2 hd
    rcases main_label_elim h1 with ⟨hsi, hmi⟩
    rcases main_label_elim h2 with ⟨hsj, hmj⟩
    exact main_unique hsi hmi hsj hmj hd
  · intro sessions i j s t hi hj htd hne
    cases hm : is_main sessions j t with
    | false =>
        rw [detect_naps_getElem, hj]
        simp [hm]
    | true =>
        exfalso
        rcases main_label_elim hi with ⟨hsi, hmi⟩
        exact hne (main_unique hj hm hsi hmi htd)


theorem sleep_session_classification_witness : (30 : Nat) ≤ 420 :=
  sleep_session_classification.1 [⟨0, 420⟩, ⟨0, 30⟩] 0 ⟨0, 420⟩ (by decide)
    1 ⟨0, 30⟩ (by decide) rfl

end Fitbit
